import Mathlib

/-!
Verification development for the HTML-to-signposted-text extraction engine
of the content-rec template tool (`src/app.py`).

The Python source is shallowly embedded: the DOM is a `Node` tree, strings
are Lean `String`s, the stateful line-emitting closures of
`extract_signposted_lines_from_body` are modelled by explicit state passing
(`List String → List String`), and the standard-library JSON codec used by
`extract_schema_jsonld` is abstracted as a `String → Option String`
parameter (`none` models a `json.loads` exception).
-/

namespace ContentRec

/-! ### String utilities -/

/-- Characters collapsed by the `[ \t]+` regexes of `normalise_keep_newlines`. -/
def isSpaceTab (c : Char) : Bool := c = ' ' || c = '\t'

/-- Whitespace stripped by Python's `str.strip()` (the characters relevant here). -/
def isPyWs (c : Char) : Bool :=
  c = ' ' || c = '\t' || c = '\n' || c = '\r' || c = '\x0b' || c = '\x0c' || c = '\xa0'

/-- Python `str.strip()`. -/
def pyStrip (s : String) : String :=
  String.mk (((s.data.dropWhile isPyWs).reverse.dropWhile isPyWs).reverse)

/-- Python `str.lower()` (ASCII). -/
def pyLower (s : String) : String := String.mk (s.data.map Char.toLower)

/-- Python `s.replace('"', '\\"')`. -/
def escapeQuotes (s : String) : String :=
  String.mk (s.data.flatMap fun c => if c = '"' then ['\\', '"'] else [c])

/-- Bool test for `needle <:+: hay` on char lists, modelling Python's `in`. -/
def charsContain : List Char → List Char → Bool
  | l, needle =>
    match l with
    | [] => needle.isEmpty
    | _ :: rest => needle.isPrefixOf l || charsContain rest needle

/-- Python `needle in hay` (substring test). -/
def pyContains (hay needle : String) : Bool := charsContain hay.data needle.data

/-- First stage of `normalise_keep_newlines`:
`s.replace("\r\n", "\n").replace("\r", "\n").replace("\xa0", " ")`, fused
into one left-to-right pass (the replacements are non-overlapping and the
fused pass produces the same string as the three sequential passes). -/
def step1 : List Char → List Char
  | [] => []
  | [c] => if c = '\r' then ['\n'] else if c = '\xa0' then [' '] else [c]
  | c :: c2 :: rest =>
    if c = '\r' ∧ c2 = '\n' then '\n' :: step1 rest
    else if c = '\r' then '\n' :: step1 (c2 :: rest)
    else if c = '\xa0' then ' ' :: step1 (c2 :: rest)
    else c :: step1 (c2 :: rest)

/-- Second stage of `normalise_keep_newlines`: `re.sub(r"[ \t]+", " ", s)`.
Each maximal run of spaces/tabs is replaced by a single space; the Boolean
records whether the scan is currently inside such a run. -/
def step2Aux : Bool → List Char → List Char
  | _, [] => []
  | inRun, c :: rest =>
    if isSpaceTab c then
      (if inRun then step2Aux true rest else ' ' :: step2Aux true rest)
    else c :: step2Aux false rest

def step2 (l : List Char) : List Char := step2Aux false l

/-- Third stage of `normalise_keep_newlines`:
`re.sub(r"[ \t]*\n[ \t]*", "\n", s)`.  The scan buffers a pending run of
spaces/tabs (`some pending`, reversed); on a newline the pending run and
the run following the newline are consumed (`none` = just emitted a newline,
still dropping its greedy `[ \t]*` tail), matching the regex's leftmost
greedy matches. -/
def step3Aux : Option (List Char) → List Char → List Char
  | none, [] => []
  | none, c :: rest =>
    if isSpaceTab c then step3Aux none rest
    else if c = '\n' then '\n' :: step3Aux none rest
    else c :: step3Aux (some []) rest
  | some pending, [] => pending.reverse
  | some pending, c :: rest =>
    if isSpaceTab c then step3Aux (some (c :: pending)) rest
    else if c = '\n' then '\n' :: step3Aux none rest
    else pending.reverse ++ c :: step3Aux (some []) rest

def step3 (l : List Char) : List Char := step3Aux (some []) l

/-- Model of `normalise_keep_newlines` from `src/app.py`. -/
def normalise_keep_newlines (s : String) : String :=
  String.mk (step3 (step2 (step1 s.data)))

/-- Python `text.split("\n")` (always returns at least one segment). -/
def pySplitNlGo : List Char → List Char → List String
  | [], acc => [String.mk acc.reverse]
  | '\n' :: rest, acc => String.mk acc.reverse :: pySplitNlGo rest []
  | c :: rest, acc => pySplitNlGo rest (c :: acc)

def pySplitNl (s : String) : List String := pySplitNlGo s.data []

/-- Python `str.splitlines()` (no trailing empty line; `\n`, `\r`, `\r\n`). -/
def pySplitlinesGo : List Char → List Char → List String
  | [], acc => if acc.isEmpty then [] else [String.mk acc.reverse]
  | '\r' :: '\n' :: rest, acc => String.mk acc.reverse :: pySplitlinesGo rest []
  | '\r' :: rest, acc => String.mk acc.reverse :: pySplitlinesGo rest []
  | '\n' :: rest, acc => String.mk acc.reverse :: pySplitlinesGo rest []
  | c :: rest, acc => pySplitlinesGo rest (c :: acc)

def pySplitlines (s : String) : List String := pySplitlinesGo s.data []

/-! ### Constants from `src/app.py` -/

def ALWAYS_STRIP : List String := ["style", "noscript", "template"]

def INLINE_TAGS : List String :=
  ["a", "span", "strong", "em", "b", "i", "u", "s", "small", "sup", "sub",
   "mark", "abbr", "time", "code", "var", "kbd"]

def NOISE_SUBSTRINGS : List String :=
  ["google tag manager",
   "loading results",
   "load more",
   "updating results",
   "something went wrong",
   "filters",
   "apply filters",
   "clear",
   "sort by",
   "to collect end-user usage analytics",
   "place this code immediately before the closing"]

/-- Model of `is_noise` from `src/app.py`. -/
def is_noise (text : String) : Bool :=
  let t := pyLower (pyStrip text)
  if t = "" then false
  else NOISE_SUBSTRINGS.any fun sub => pyContains t sub

/-! ### DOM model

A parsed document is a tree of nodes: elements (`Tag` in bs4) with a tag
name, an attribute association list and ordered children; text nodes
(`NavigableString`); and comment-like nodes (`Comment` / `Doctype` /
`ProcessingInstruction`, which in bs4 are `NavigableString` subclasses but
are skipped by the traversal loops that test for them explicitly). -/

inductive Node where
  | text (s : String)
  | comment (s : String)
  | elem (name : String) (attrs : List (String × String)) (children : List Node)

/-- Tag name of an element (`""` for non-elements). -/
def Node.tagName : Node → String
  | .elem n _ _ => n
  | _ => ""

/-- bs4 `tag.get(key) or ""` / `tag.get(key, "")`: an absent attribute and an
empty-valued attribute both yield `""`. -/
def tagGet (n : Node) (key : String) : String :=
  match n with
  | .elem _ attrs _ => ((attrs.lookup key).getD "")
  | _ => ""

/-- Does the attribute exist at all (bs4 `tag.has_attr`)? -/
def hasAttr (n : Node) (key : String) : Bool :=
  match n with
  | .elem _ attrs _ => (attrs.lookup key).isSome
  | _ => false

mutual

/-- All descendant text-node strings in document order (the strings yielded
by bs4 `get_text`; comments are excluded there). -/
def textStrings : Node → List String
  | .text s => [s]
  | .comment _ => []
  | .elem _ _ cs => textStringsList cs

def textStringsList : List Node → List String
  | [] => []
  | c :: cs => textStrings c ++ textStringsList cs

end

/-- bs4 `tag.get_text(" ", strip=True)`: strip every descendant string, drop
the ones that become empty, join with one space. -/
def getTextSpaceStrip (n : Node) : String :=
  String.intercalate " " (((textStrings n).map pyStrip).filter fun s => s ≠ "")

/-- bs4 `tag.get_text()`: concatenation of the descendant strings. -/
def getTextPlain (n : Node) : String := String.join (textStrings n)

/-- Model of `annotate_anchor_text` from `src/app.py`: the anchor's own
space-joined stripped text, suffixed with the href iff annotation is on and
the href value is truthy (non-empty). -/
def annotate_anchor_text (a : Node) (annotate_links : Bool) : String :=
  let text := getTextSpaceStrip a
  let href := tagGet a "href"
  if annotate_links ∧ href ≠ "" then text ++ " (→ " ++ href ++ ")" else text

mutual

/-- Model of `extract_text_preserve_breaks` from `src/app.py`: literal text nodes
(`str(node)` also covers the `NavigableString` subclasses, hence comments),
`<br>` becomes `"\n"`, anchors are one atomic unit via
`annotate_anchor_text`, any other element is flattened recursively. -/
def extract_text_preserve_breaks (ann : Bool) : Node → String
  | .text s => s
  | .comment s => s
  | .elem _ _ cs => etpbChildren ann cs

def etpbChildren (ann : Bool) : List Node → String
  | [] => ""
  | c :: cs =>
    (match c with
     | .text s => s
     | .comment s => s
     | .elem nm ats ch =>
       if nm = "br" then "\n"
       else if nm = "a" then annotate_anchor_text (.elem nm ats ch) ann
       else extract_text_preserve_breaks ann (.elem nm ats ch)) ++ etpbChildren ann cs

end

mutual

/-- Model of `tag.find_all(pred)`: all matching descendant elements, document order. -/
def findAllDesc (p : Node → Bool) : Node → List Node
  | .elem _ _ cs => findAllDescList p cs
  | _ => []

def findAllDescList (p : Node → Bool) : List Node → List Node
  | [] => []
  | c :: cs =>
    (match c with
     | .elem nm ats ch =>
       (if p (.elem nm ats ch) then [Node.elem nm ats ch] else []) ++ findAllDesc p (.elem nm ats ch)
     | _ => []) ++ findAllDescList p cs

end

/-- Model of `tag.find_all(names, recursive=False)`: direct element children whose
name is in `names`. -/
def directChildren (n : Node) (names : List String) : List Node :=
  match n with
  | .elem _ _ cs => cs.filter fun c =>
      match c with
      | .elem nm _ _ => names.contains nm
      | _ => false

  | _ => []

/-- Model of `tag.find(name)`: first matching descendant in document order. -/
def findFirst (name : String) (n : Node) : Option Node :=
  (findAllDesc (fun t => t.tagName = name) n).head?

/-- bs4 `tag.string`: the single `NavigableString` child if the tag has
exactly one child (recursing through a single element child), else `None`.
`Comment` is a `NavigableString` subclass, so a lone comment child counts. -/
def nodeString : Node → Option String
  | .elem _ _ [.text s] => some s
  | .elem _ _ [.comment s] => some s
  | .elem _ _ [.elem nm ats ch] => nodeString (.elem nm ats ch)
  | _ => none

/-! ### Schema (JSON-LD) extraction -/

/-- The `is_ldjson` predicate from `extract_schema_jsonld`: a `script`
element whose `type` attribute contains `"ld+json"` case-insensitively. -/
def is_ldjson (tag : Node) : Bool :=
  match tag with
  | .elem nm _ _ => nm = "script" && pyContains (pyLower (tagGet tag "type")) "ld+json"
  | _ => false

/-- Model of `sc.string or sc.get_text() or ""` (an empty or absent `.string` falls
back to `get_text()`). -/
def scriptRaw (sc : Node) : String :=
  match nodeString sc with
  | some s => if s = "" then getTextPlain sc else s
  | none => getTextPlain sc

/-- The per-script block texts: trimmed, empty blocks skipped, pretty-printed
when the JSON codec succeeds and kept raw when it fails. -/
def schemaBlocks (tryPretty : String → Option String) (scripts : List Node) : List String :=
  scripts.filterMap fun sc =>
    let raw := pyStrip (scriptRaw sc)
    if raw = "" then none
    else
      match tryPretty raw with
      | some pretty => some pretty
      | none => some raw

/-- The final line-flattening loop of `extract_schema_jsonld`: one empty
separator line before every block except the first, each block split into
its lines. -/
def schemaLinesOfBlocks : List String → List String
  | [] => []
  | [b] => pySplitlines b
  | b :: b2 :: bs => pySplitlines b ++ "" :: schemaLinesOfBlocks (b2 :: bs)

/-- Model of `extract_schema_jsonld` from `src/app.py`, with the standard-library
JSON round-trip `json.dumps(json.loads(raw), indent=2, ensure_ascii=False)`
abstracted as `tryPretty` (`none` models a parse exception). -/
def extract_schema_jsonld (tryPretty : String → Option String) (soup : Node) : List String :=
  schemaLinesOfBlocks (schemaBlocks tryPretty (findAllDesc is_ldjson soup))

/-! ### Body extraction -/

/-- One segment step of the loop in `emit_lines`. -/
def segStep (tag_name : String) (ls : List String) (seg : String) : List String :=
  let s := pyStrip seg
  if s ≠ "" then
    if tag_name = "p" ∧ is_noise s then ls
    else ls ++ ["<" ++ tag_name ++ "> " ++ s]
  else ls ++ [""]

/-- Model of `emit_lines` from `extract_signposted_lines_from_body`, with the
closure's `lines` list passed explicitly. -/
def emit_lines (tag_name : String) (text : String) (lines : List String) : List String :=
  let lines :=
    if ["h2", "h3", "h4", "h5", "h6"].contains tag_name then
      if lines = [] ∨ lines.getLast? ≠ some "" then lines ++ [""] else lines
    else lines
  (pySplitNl (normalise_keep_newlines text)).foldl (segStep tag_name) lines

/-- Model of `emit_img` from `extract_signposted_lines_from_body`. -/
def emit_img (include_img_src : Bool) (img_tag : Node) (lines : List String) : List String :=
  match img_tag with
  | .elem "img" ats _ =>
    let alt := escapeQuotes (pyStrip ((ats.lookup "alt").getD ""))
    if include_img_src then
      let src := escapeQuotes (pyStrip ((ats.lookup "src").getD ""))
      if src ≠ "" then lines ++ ["<img alt=\"" ++ alt ++ "\" src=\"" ++ src ++ "\">"]
      else lines ++ ["<img alt=\"" ++ alt ++ "\">"]
    else lines ++ ["<img alt=\"" ++ alt ++ "\">"]
  | _ => lines

/-- Model of `flush_buf` from the generic-container branch of `handle`. -/
def flush_buf (buf : List String) (lines : List String) : List String :=
  if buf = [] then lines
  else
    let joined := normalise_keep_newlines (String.join buf)
    if pyStrip joined ≠ "" ∧ ¬ is_noise joined then emit_lines "p" joined lines else lines

/-- Predicate used for `find_all("img")`. -/
def isImg (t : Node) : Bool := t.tagName = "img"

/-- The body of the per-`li` work in the list branch of `handle`: flatten
the whole item, emit it as a paragraph line when non-blank, then emit every
descendant image. -/
def handleLi (ann inc : Bool) (li : Node) (lines : List String) : List String :=
  let txt := extract_text_preserve_breaks ann li
  let lines := if pyStrip txt ≠ "" then emit_lines "p" txt lines else lines
  (findAllDesc isImg li).foldl (fun ls img => emit_img inc img ls) lines

/-- The `ul`/`ol` branch of `handle`: each direct `li`, then the direct `li`s
of each of its direct sub-lists. -/
def handleList (ann inc : Bool) (tag : Node) (lines : List String) : List String :=
  (directChildren tag ["li"]).foldl
    (fun ls li =>
      let ls := handleLi ann inc li ls
      (directChildren li ["ul", "ol"]).foldl
        (fun ls2 sub =>
          (directChildren sub ["li"]).foldl
            (fun ls3 subLi => handleLi ann inc subLi ls3) ls2)
        ls)
    lines

mutual

/-- Model of `handle` from `extract_signposted_lines_from_body` (dispatch on the tag
name: stripped tags, headings, paragraphs, lists, generic containers). -/
def handle (ann inc : Bool) (tag : Node) (lines : List String) : List String :=
  match tag with
  | .elem name ats cs =>
    if ALWAYS_STRIP.contains name ∨ name = "script" then lines
    else if ["h1", "h2", "h3", "h4", "h5", "h6"].contains name then
      let txt := extract_text_preserve_breaks ann (.elem name ats cs)
      if pyStrip txt ≠ "" then emit_lines name txt lines else lines
    else if name = "p" then
      let txt := getTextSpaceStrip (.elem name ats cs)
      let lines := if pyStrip txt ≠ "" then emit_lines "p" txt lines else lines
      (findAllDesc isImg (.elem name ats cs)).foldl (fun ls img => emit_img inc img ls) lines
    else if name = "ul" ∨ name = "ol" then
      handleList ann inc (.elem name ats cs) lines
    else genericLoop ann inc cs [] lines
  | _ => lines

/-- The generic-container child loop of `handle`: buffer contiguous inline
content, flush around images and block-level children. -/
def genericLoop (ann inc : Bool) : List Node → List String → List String → List String
  | [], buf, lines => flush_buf buf lines
  | child :: rest, buf, lines =>
    match child with
    | .comment _ => genericLoop ann inc rest buf lines
    | .text s => genericLoop ann inc rest (buf ++ [s]) lines
    | .elem nm ats cs =>
      if nm = "br" then genericLoop ann inc rest (buf ++ ["\n"]) lines
      else if nm = "img" then
        genericLoop ann inc rest [] (emit_img inc (.elem nm ats cs) (flush_buf buf lines))
      else if INLINE_TAGS.contains nm then
        genericLoop ann inc rest (buf ++ [extract_text_preserve_breaks ann (.elem nm ats cs)]) lines
      else genericLoop ann inc rest [] (handle ann inc (.elem nm ats cs) (flush_buf buf lines))

end

/-- One step of the top-level walk over `body.children`. -/
def bodyChildStep (ann inc : Bool) (lines : List String) (child : Node) : List String :=
  match child with
  | .comment _ => lines
  | .text s =>
    let raw := normalise_keep_newlines s
    if pyStrip raw ≠ "" ∧ ¬ is_noise raw then emit_lines "p" raw lines
    else if raw = "\n" then lines ++ [""]
    else lines
  | .elem nm ats cs =>
    if nm = "img" then emit_img inc (.elem nm ats cs) lines
    else handle ann inc (.elem nm ats cs) lines

/-- The `lines` list built by `extract_signposted_lines_from_body` before
its deduplication post-pass. -/
def rawSignpostedLines (body : Node) (ann inc : Bool) : List String :=
  match body with
  | .elem _ _ cs => cs.foldl (bodyChildStep ann inc) []
  | _ => []

/-- One iteration of the deduplication post-pass: blank lines appended only
after a non-blank (or at the start), other lines appended unless equal to
the previous emitted line. -/
def dedupStep (deduped : List String) (ln : String) : List String :=
  if ln = "" then
    if deduped = [] ∨ deduped.getLast? ≠ some "" then deduped ++ [""] else deduped
  else
    if deduped = [] ∨ deduped.getLast? ≠ some ln then deduped ++ [ln] else deduped

/-- Model of `extract_signposted_lines_from_body` from `src/app.py`. -/
def extract_signposted_lines_from_body
    (body : Node) (annotate_links : Bool) (include_img_src : Bool) : List String :=
  (rawSignpostedLines body annotate_links include_img_src).foldl dedupStep []

/-! ### Remove-before-first-h1 -/

def isH1 (n : Node) : Bool := n.tagName = "h1"

/-- Bump the first index of a child path by one (the match was found in a
later sibling). -/
def bumpHead : List Nat → List Nat
  | [] => []
  | i :: r => (i + 1) :: r

mutual

/-- The child-index path from a node down to its first `h1` descendant in
document order (`body.find("h1")` together with the ancestor chain built by
`remove_before_first_h1_all_levels`). -/
def findH1Path : Node → Option (List Nat)
  | .elem _ _ cs => findH1PathList cs
  | _ => none

def findH1PathList : List Node → Option (List Nat)
  | [] => none
  | c :: cs =>
    if isH1 c then some [0]
    else
      match findH1Path c with
      | some p => some (0 :: p)
      | none => (findH1PathList cs).map bumpHead

end

/-- Walk a child-index path; at every level delete all siblings preceding
the node on the path (Tags are decomposed and strings extracted alike, so
every preceding sibling disappears). -/
def prunePath : List Nat → Node → Node
  | [], n => n
  | i :: rest, n =>
    match n with
    | .elem nm ats cs =>
      match cs.drop i with
      | [] => .elem nm ats []
      | c :: cs' => .elem nm ats (prunePath rest c :: cs')
    | other => other

/-- Model of `remove_before_first_h1_all_levels` from `src/app.py`, as a tree
transformation (the Python function mutates `body` in place). -/
def remove_before_first_h1_all_levels (body : Node) : Node :=
  match findH1Path body with
  | none => body
  | some p => prunePath p body

/-! ### Page metadata (the title/description part of `process_url`) -/

/-- Model of `head.title.string.strip() if (head and head.title and head.title.string)
else "N/A"` from `process_url`. -/
def titleOf (head : Node) : String :=
  match findFirst "title" head with
  | none => "N/A"
  | some t =>
    match nodeString t with
    | none => "N/A"
    | some s => if s = "" then "N/A" else pyStrip s

/-- Model of the lookup `head.find` of the meta element named description. -/
def findMetaDescription (head : Node) : Option Node :=
  (findAllDesc (fun t => t.tagName = "meta" ∧ tagGet t "name" = "description") head).head?

/-- Model of `meta_el.get("content").strip() if (meta_el and meta_el.get("content"))
else "N/A"` from `process_url`. -/
def descriptionOf (head : Node) : String :=
  match findMetaDescription head with
  | none => "N/A"
  | some m =>
    let c := tagGet m "content"
    if c = "" then "N/A" else pyStrip c

/-- Model of `len(v) if v != "N/A" else 0`: the rule `process_url` applies to both
`title_len` and `description_len`. -/
def metaFieldLen (v : String) : Nat := if v ≠ "N/A" then v.length else 0

/-! ### Derived / specification-side forms used by the theorems -/

/-- The lines contributed by one segment of `emit_lines`, as a pure function
of the segment (used to state that `emit_lines` only ever appends). -/
def segOut (tag_name : String) (seg : String) : List String :=
  let s := pyStrip seg
  if s ≠ "" then
    if tag_name = "p" ∧ is_noise s then []
    else ["<" ++ tag_name ++ "> " ++ s]
  else [""]

/-- Everything `emit_lines` appends for a text, apart from the possible
heading blank marker. -/
def segLines (tag_name text : String) : List String :=
  ((pySplitNl (normalise_keep_newlines text)).map (segOut tag_name)).flatten

/-- The single line `emit_img` appends for an `img` element, written as one
conditional: the `src` attribute appears iff the option is enabled and the
trimmed `src` is non-empty. -/
def imgLineOf (inc : Bool) (ats : List (String × String)) : String :=
  let alt := escapeQuotes (pyStrip ((ats.lookup "alt").getD ""))
  let src := escapeQuotes (pyStrip ((ats.lookup "src").getD ""))
  if inc ∧ src ≠ "" then "<img alt=\"" ++ alt ++ "\" src=\"" ++ src ++ "\">"
  else "<img alt=\"" ++ alt ++ "\">"

/-- Adjacent-pair invariant of a normalised character list: no two adjacent
spaces/tabs, and no space/tab adjacent to a newline. -/
def okPair (a b : Char) : Prop :=
  ¬(isSpaceTab a ∧ isSpaceTab b) ∧ ¬(isSpaceTab a ∧ b = '\n') ∧ ¬(a = '\n' ∧ isSpaceTab b)

/-- Characterisation of the output of `normalise_keep_newlines`: no carriage
returns, non-breaking spaces or tabs, and the `okPair` adjacency invariant. -/
def NormalChars (l : List Char) : Prop :=
  (∀ c ∈ l, c ≠ '\r' ∧ c ≠ '\xa0' ∧ c ≠ '\t') ∧ List.Chain' okPair l

end ContentRec

namespace ContentRec

/-! ### The deduplication post-pass (claim C1) -/

theorem dedupStep_eq (d : List String) (ln : String) :
    dedupStep d ln = if d.getLast? = some ln then d else d ++ [ln] := by
  unfold dedupStep
  by_cases h : d.getLast? = some ln
  · have hd : d ≠ [] := by rintro rfl; simp at h
    by_cases hln : ln = ""
    · subst hln; simp [h, hd]
    · simp [h, hd, hln]
  · by_cases hln : ln = ""
    · subst hln; simp [h]
    · simp [h, hln]

theorem foldl_dedupStep_destutter' (l : List String) :
    ∀ (d : List String) (a : String),
      List.foldl dedupStep (d ++ [a]) l = d ++ List.destutter' (· ≠ ·) a l := by
  induction l with
  | nil => intro d a; simp [List.destutter'_nil]
  | cons h t ih =>
    intro d a
    rw [List.foldl_cons, dedupStep_eq, List.getLast?_concat, List.destutter'_cons]
    by_cases hha : a = h
    · subst hha
      simp only [if_pos rfl, ne_eq, not_true_eq_false, if_false]
      exact ih d a
    · have h1 : ¬ (some a = some h) := by simpa using hha
      rw [if_neg h1, if_pos hha]
      have := ih (d ++ [a]) h
      simpa [List.append_assoc] using this

theorem dedup_eq_destutter (l : List String) :
    l.foldl dedupStep [] = l.destutter (· ≠ ·) := by
  cases l with
  | nil => rfl
  | cons h t =>
    rw [List.foldl_cons]
    have h1 : dedupStep [] h = [h] := by rw [dedupStep_eq]; simp
    rw [h1, List.destutter_cons']
    simpa using foldl_dedupStep_destutter' t [] h

/-- C1: after its deduplication post-pass, the line sequence returned by
`extract_signposted_lines_from_body` is exactly the adjacent-duplicate
collapse (`destutter (· ≠ ·)`) of the raw emitted sequence — every run of
consecutive equal lines, blank markers included, keeps only its first
occurrence and all other lines keep their original order — so no two
adjacent returned lines are equal. -/
theorem c1_no_adjacent_duplicates (body : Node) (ann inc : Bool) :
    extract_signposted_lines_from_body body ann inc
        = (rawSignpostedLines body ann inc).destutter (· ≠ ·) ∧
      List.Chain' (· ≠ ·) (extract_signposted_lines_from_body body ann inc) := by
  have h : extract_signposted_lines_from_body body ann inc
      = (rawSignpostedLines body ann inc).destutter (· ≠ ·) := by
    unfold extract_signposted_lines_from_body
    exact dedup_eq_destutter _
  refine ⟨h, ?_⟩
  rw [h]
  exact List.destutter_is_chain' (fun a b : String => a ≠ b) _

end ContentRec

namespace ContentRec

/-! ### `emit_lines` decomposition (claims C3, C4) -/

theorem segStep_eq (tn : String) (ls : List String) (seg : String) :
    segStep tn ls seg = ls ++ segOut tn seg := by
  unfold segStep segOut
  by_cases h1 : pyStrip seg = ""
  · simp [h1]
  · by_cases h2 : tn = "p" ∧ is_noise (pyStrip seg)
    · simp [h1, h2]
    · simp [h1, h2]

theorem foldl_segStep (tn : String) (segs : List String) :
    ∀ init, segs.foldl (segStep tn) init = init ++ (segs.map (segOut tn)).flatten := by
  induction segs with
  | nil => intro init; simp
  | cons s t ih =>
    intro init
    rw [List.foldl_cons, segStep_eq, ih]
    simp [List.append_assoc]

theorem emit_lines_eq (tn txt : String) (lines : List String) :
    emit_lines tn txt lines =
      (if ["h2", "h3", "h4", "h5", "h6"].contains tn then
         if lines.getLast? = some "" then lines else lines ++ [""]
       else lines) ++ segLines tn txt := by
  unfold emit_lines segLines
  rw [foldl_segStep]
  congr 1
  by_cases hh : (["h2", "h3", "h4", "h5", "h6"].contains tn) = true
  · rw [if_pos hh, if_pos hh]
    by_cases hl : lines.getLast? = some ""
    · have hne : lines ≠ [] := by rintro rfl; simp at hl
      have hcond : ¬(lines = [] ∨ lines.getLast? ≠ some "") := by
        push_neg
        exact ⟨hne, hl⟩
      rw [if_neg hcond, if_pos hl]
    · rw [if_pos (Or.inr hl), if_neg hl]
  · rw [if_neg hh, if_neg hh]

end ContentRec

namespace ContentRec

theorem handle_heading (ann inc : Bool) (name : String) (ats : List (String × String))
    (cs : List Node) (lines : List String)
    (h : name ∈ (["h1", "h2", "h3", "h4", "h5", "h6"] : List String)) :
    handle ann inc (.elem name ats cs) lines =
      (if pyStrip (extract_text_preserve_breaks ann (.elem name ats cs)) ≠ "" then
        emit_lines name (extract_text_preserve_breaks ann (.elem name ats cs)) lines
      else lines) := by
  fin_cases h <;> simp [handle, ALWAYS_STRIP]

end ContentRec

namespace ContentRec

/-- C4: a level 2–6 heading with non-whitespace content first appends exactly
one blank marker iff the last emitted line is not already blank (appending
one also when nothing has been emitted yet), followed by its text segments;
a heading whose flattened content is only whitespace emits nothing at all;
and `<h1>Title</h1><h2>Sub</h2>` extracts to `<h1> Title`, one blank,
`<h2> Sub`. -/
theorem c4_heading_blank_insertion (ann inc : Bool) (name : String)
    (ats : List (String × String)) (cs : List Node) (lines : List String) :
    (extract_signposted_lines_from_body
        (.elem "body" [] [.elem "h1" [] [.text "Title"], .elem "h2" [] [.text "Sub"]]) false false
      = ["<h1> Title", "", "<h2> Sub"]) ∧
    (name ∈ (["h2", "h3", "h4", "h5", "h6"] : List String) →
      pyStrip (extract_text_preserve_breaks ann (.elem name ats cs)) ≠ "" →
      handle ann inc (.elem name ats cs) lines
        = (if lines.getLast? = some "" then lines else lines ++ [""])
            ++ segLines name (extract_text_preserve_breaks ann (.elem name ats cs))) ∧
    (name ∈ (["h1", "h2", "h3", "h4", "h5", "h6"] : List String) →
      pyStrip (extract_text_preserve_breaks ann (.elem name ats cs)) = "" →
      handle ann inc (.elem name ats cs) lines = lines) := by
  refine ⟨by decide, ?_, ?_⟩
  · intro hmem hne
    have h6 : name ∈ (["h1", "h2", "h3", "h4", "h5", "h6"] : List String) := by
      fin_cases hmem <;> simp
    have hcont : (["h2", "h3", "h4", "h5", "h6"].contains name) = true := by
      simpa using hmem
    rw [handle_heading ann inc name ats cs lines h6, if_pos hne, emit_lines_eq, if_pos hcont]
  · intro hmem he
    rw [handle_heading ann inc name ats cs lines hmem, if_neg (not_not_intro he)]

/-- C4 witness: instantiation at `<h3>T</h3>` after one non-blank emitted
line — the blank marker is inserted — and at a whitespace-only `<h3>`. -/
theorem c4_heading_blank_insertion_witness :
    handle false false (.elem "h3" [] [.text "T"]) ["<p> x"]
        = ["<p> x", "", "<h3> T"] ∧
      handle false false (.elem "h3" [] [.text " "]) ["<p> x"] = ["<p> x"] := by
  constructor
  · have h := (c4_heading_blank_insertion false false "h3" [] [.text "T"] ["<p> x"]).2.1
      (by decide) (by decide)
    rw [h]
    decide
  · exact (c4_heading_blank_insertion false false "h3" [] [.text " "] ["<p> x"]).2.2
      (by decide) (by decide)

end ContentRec

namespace ContentRec

/-! ### Appending behaviour of the emitters (claims C2, C3, C5) -/

theorem emit_lines_p (txt : String) (lines : List String) :
    emit_lines "p" txt lines = lines ++ segLines "p" txt := by
  rw [emit_lines_eq]
  simp

theorem emit_img_append (inc : Bool) (img : Node) (lines : List String) :
    emit_img inc img lines = lines ++ emit_img inc img [] := by
  cases img with
  | text _ => simp [emit_img]
  | comment _ => simp [emit_img]
  | elem nm ats ch =>
    by_cases hnm : nm = "img"
    · subst hnm
      cases inc with
      | false => simp [emit_img]
      | true =>
        by_cases hsrc : escapeQuotes (pyStrip ((List.lookup "src" ats).getD "")) = ""
        · simp [emit_img, hsrc]
        · simp [emit_img, hsrc]
    · simp [emit_img, hnm]

theorem foldl_append_of_step {β : Type} (step : List String → β → List String)
    (h : ∀ ls b, step ls b = ls ++ step [] b) :
    ∀ (l : List β) (lines : List String), l.foldl step lines = lines ++ l.foldl step [] := by
  intro l
  induction l with
  | nil => intro lines; simp
  | cons b t ih =>
    intro lines
    rw [List.foldl_cons, List.foldl_cons, ih (step lines b), h lines b, ih (step [] b),
      List.append_assoc]

theorem handleLi_append (ann inc : Bool) (li : Node) (lines : List String) :
    handleLi ann inc li lines = lines ++ handleLi ann inc li [] := by
  unfold handleLi
  by_cases h : pyStrip (extract_text_preserve_breaks ann li) = ""
  · simp only [h, ne_eq, not_true_eq_false, if_false]
    exact foldl_append_of_step _ (fun ls b => emit_img_append inc b ls) _ lines
  · simp only [ne_eq, h, not_false_eq_true, if_true]
    rw [foldl_append_of_step _ (fun ls b => emit_img_append inc b ls) (findAllDesc isImg li)
        (emit_lines "p" (extract_text_preserve_breaks ann li) lines),
      foldl_append_of_step _ (fun ls b => emit_img_append inc b ls) (findAllDesc isImg li)
        (emit_lines "p" (extract_text_preserve_breaks ann li) [])]
    simp [emit_lines_p, List.append_assoc]

theorem handleList_append (ann inc : Bool) (tag : Node) (lines : List String) :
    handleList ann inc tag lines = lines ++ handleList ann inc tag [] := by
  unfold handleList
  apply foldl_append_of_step
  intro ls li
  rw [handleLi_append]
  have hsub : ∀ (subs : List Node) (start : List String),
      subs.foldl
          (fun ls2 sub =>
            (directChildren sub ["li"]).foldl (fun ls3 subLi => handleLi ann inc subLi ls3) ls2)
          start
        = start
            ++ subs.foldl
                (fun ls2 sub =>
                  (directChildren sub ["li"]).foldl (fun ls3 subLi => handleLi ann inc subLi ls3) ls2)
                [] := by
    intro subs
    apply foldl_append_of_step
    intro ls2 sub
    exact foldl_append_of_step _ (fun l b => handleLi_append ann inc b l) _ ls2
  rw [hsub, hsub (directChildren li ["ul", "ol"]) (handleLi ann inc li []), List.append_assoc]

end ContentRec

namespace ContentRec

/-- C2 counterexample: for `<p>Hello<br>World</p>` the body traversal does
not emit the two paragraph lines the claim demands. -/
theorem c2_br_paragraph_counterexample :
    extract_signposted_lines_from_body
        (.elem "body" [] [.elem "p" [] [.text "Hello", .elem "br" [] [], .text "World"]])
        false false
      ≠ ["<p> Hello", "<p> World"] := by decide

/-- C2 amended: the paragraph branch of `handle` flattens with
`get_text(" ", strip=True)` rather than `extract_text_preserve_breaks`, so
the line break inside `<p>Hello<br>World</p>` becomes a single-space
separator and exactly one paragraph line `<p> Hello World` is emitted
(whereas the break-preserving flattener would have produced the embedded
newline `Hello\nWorld`). -/
theorem c2_br_paragraph_amended :
    extract_signposted_lines_from_body
        (.elem "body" [] [.elem "p" [] [.text "Hello", .elem "br" [] [], .text "World"]])
        false false
      = ["<p> Hello World"] ∧
    getTextSpaceStrip (.elem "p" [] [.text "Hello", .elem "br" [] [], .text "World"])
      = "Hello World" ∧
    extract_text_preserve_breaks false
        (.elem "p" [] [.text "Hello", .elem "br" [] [], .text "World"])
      = "Hello\nWorld" := by decide

/-- C3 counterexample: for `<ul><li>A<ul><li>B</li></ul></li></ul>` the
sub-item's text is not emitted exactly once — the output the claim demands
(parent item line `<p> A`, then sub-item line `<p> B`) is not produced. -/
theorem c3_nested_list_counterexample :
    extract_signposted_lines_from_body
        (.elem "body" []
          [.elem "ul" [] [.elem "li" [] [.text "A", .elem "ul" [] [.elem "li" [] [.text "B"]]]]])
        false false
      ≠ ["<p> A", "<p> B"] := by decide

/-- C3 amended: each direct list item is emitted as one paragraph-equivalent
line whose text is the flattening of the whole item including any nested
sub-list text, and the items of one level of nested sub-lists are emitted
again directly after the parent item — so sub-item text appears both inside
the parent's flattened line and as its own line
(`<ul><li>A<ul><li>B</li></ul></li></ul>` gives `<p> AB` then `<p> B`).
The list branch only ever appends to the line state. -/
theorem c3_nested_list_amended (ann inc : Bool) (tag : Node) (lines : List String) :
    (extract_signposted_lines_from_body
        (.elem "body" []
          [.elem "ul" [] [.elem "li" [] [.text "A", .elem "ul" [] [.elem "li" [] [.text "B"]]]]])
        false false
      = ["<p> AB", "<p> B"]) ∧
    (extract_text_preserve_breaks false
        (.elem "li" [] [.text "A", .elem "ul" [] [.elem "li" [] [.text "B"]]])
      = "AB") ∧
    handleList ann inc tag lines = lines ++ handleList ann inc tag [] := by
  exact ⟨by decide, by decide, handleList_append ann inc tag lines⟩

/-- C5: `emit_img` always appends exactly one line: the quote-escaped
trimmed `alt`, plus the quote-escaped trimmed `src` iff the include-source
option is on and the trimmed `src` is non-empty; in particular
`<img alt="Cat">` yields `<img alt="Cat">` with the option off,
`<img alt="Cat" src="c.jpg">` with it on, and the no-source form when `src`
is empty. -/
theorem c5_emit_img (inc : Bool) (ats : List (String × String)) (cs : List Node)
    (lines : List String) :
    emit_img inc (.elem "img" ats cs) lines = lines ++ [imgLineOf inc ats] ∧
    emit_img false (.elem "img" [("alt", "Cat")] []) [] = ["<img alt=\"Cat\">"] ∧
    emit_img true (.elem "img" [("alt", "Cat"), ("src", "c.jpg")] []) []
      = ["<img alt=\"Cat\" src=\"c.jpg\">"] ∧
    emit_img true (.elem "img" [("alt", "Cat"), ("src", "")] []) [] = ["<img alt=\"Cat\">"] ∧
    emit_img false (.elem "img" [("alt", "a\"b")] []) [] = ["<img alt=\"a\\\"b\">"] := by
  refine ⟨?_, by decide, by decide, by decide, by decide⟩
  cases inc with
  | false => simp [emit_img, imgLineOf]
  | true =>
    by_cases hsrc : escapeQuotes (pyStrip ((List.lookup "src" ats).getD "")) = ""
    · simp [emit_img, imgLineOf, hsrc]
    · simp [emit_img, imgLineOf, hsrc]

end ContentRec

namespace ContentRec

theorem etpbChildren_append (ann : Bool) (l1 l2 : List Node) :
    etpbChildren ann (l1 ++ l2) = etpbChildren ann l1 ++ etpbChildren ann l2 := by
  induction l1 with
  | nil => simp [etpbChildren]
  | cons c t ih => cases c <;> simp [etpbChildren, ih, String.append_assoc]

/-- C6 counterexample: in `<a href="">Click</a>` the `href` attribute is
present and link annotation is enabled, yet no ` (→ …)` suffix is produced
(the code tests Python truthiness of the href value, not attribute
presence). -/
theorem c6_anchor_counterexample :
    hasAttr (.elem "a" [("href", "")] [.text "Click"]) "href" = true ∧
    annotate_anchor_text (.elem "a" [("href", "")] [.text "Click"]) true = "Click" ∧
    ("Click" : String) ≠ "Click (→ )" := by decide

/-- C6 amended: flattening treats an anchor as one atomic unit — its own
space-joined stripped text, suffixed with ` (→ <href>)` exactly when the
annotate-links option is enabled and the `href` value is non-empty (an
absent `href` and `href=""` alike suppress the suffix) — and never descends
into the anchor's internal markup (so `<a href="u"><b>C</b>lick</a>`
flattens to `C lick (→ u)`, not `Click (→ u)`);
`<a href="https://x.com">Click</a>` flattens to `Click (→ https://x.com)`
with annotation enabled and `Click` with it disabled. -/
theorem c6_anchor_atomic (ann : Bool) (ats : List (String × String))
    (ch pre post : List Node) :
    (etpbChildren ann (pre ++ .elem "a" ats ch :: post)
      = etpbChildren ann pre ++ annotate_anchor_text (.elem "a" ats ch) ann
          ++ etpbChildren ann post) ∧
    (annotate_anchor_text (.elem "a" ats ch) ann
      = if ann ∧ tagGet (.elem "a" ats ch) "href" ≠ "" then
          getTextSpaceStrip (.elem "a" ats ch) ++ " (→ " ++ tagGet (.elem "a" ats ch) "href" ++ ")"
        else getTextSpaceStrip (.elem "a" ats ch)) ∧
    (extract_text_preserve_breaks true
        (.elem "h1" [] [.elem "a" [("href", "https://x.com")] [.text "Click"]])
      = "Click (→ https://x.com)") ∧
    (extract_text_preserve_breaks false
        (.elem "h1" [] [.elem "a" [("href", "https://x.com")] [.text "Click"]])
      = "Click") ∧
    (extract_text_preserve_breaks true
        (.elem "h1" [] [.elem "a" [("href", "u")] [.elem "b" [] [.text "C"], .text "lick"]])
      = "C lick (→ u)") := by
  refine ⟨?_, rfl, by decide, by decide, by decide⟩
  rw [etpbChildren_append]
  simp [etpbChildren, String.append_assoc]

end ContentRec

namespace ContentRec

/-! ### Schema extraction (claim C7) -/

theorem schemaLinesOfBlocks_eq (bs : List String) :
    schemaLinesOfBlocks bs = ((bs.map pySplitlines).intersperse [""]).flatten := by
  induction bs with
  | nil => rfl
  | cons b t ih =>
    cases t with
    | nil => simp [schemaLinesOfBlocks, List.intersperse]
    | cons b2 bs2 =>
      rw [schemaLinesOfBlocks, ih]
      simp [List.intersperse]

theorem schemaBlocks_eq (f : String → Option String) (scripts : List Node) :
    schemaBlocks f scripts
      = scripts.filterMap fun sc =>
          if pyStrip (scriptRaw sc) = "" then none
          else some ((f (pyStrip (scriptRaw sc))).getD (pyStrip (scriptRaw sc))) := by
  unfold schemaBlocks
  congr 1
  funext sc
  by_cases h : pyStrip (scriptRaw sc) = ""
  · simp [h]
  · cases hf : f (pyStrip (scriptRaw sc)) <;> simp [h, hf]

theorem findAllDescList_eq_filter (p : Node → Bool) (l : List Node) :
    findAllDescList p l = (findAllDescList (fun _ => true) l).filter p := by
  apply findAllDescList.induct p
      (fun n => findAllDesc p n = (findAllDesc (fun _ => true) n).filter p)
      (fun l => findAllDescList p l = (findAllDescList (fun _ => true) l).filter p)
  · intro name attrs cs h
    simp only [findAllDesc]
    exact h
  · intro t ht
    cases t with
    | text s => simp [findAllDesc]
    | comment s => simp [findAllDesc]
    | elem nm ats ch => exact absurd rfl (ht nm ats ch)
  · simp [findAllDescList]
  · intro c cs hc hcs
    cases c with
    | text s => simpa [findAllDescList] using hcs
    | comment s => simpa [findAllDescList] using hcs
    | elem nm ats ch =>
      simp only [findAllDescList, List.filter_append, hcs]
      simp only at hc
      rw [hc]
      by_cases hp : p (Node.elem nm ats ch) <;> simp [hp]

theorem findAllDesc_eq_filter (p : Node → Bool) (n : Node) :
    findAllDesc p n = (findAllDesc (fun _ => true) n).filter p := by
  cases n with
  | text s => simp [findAllDesc]
  | comment s => simp [findAllDesc]
  | elem nm ats ch =>
    simp only [findAllDesc]
    exact findAllDescList_eq_filter p ch

/-- C7: `extract_schema_jsonld` selects, among all descendant elements in
document order, exactly the `script`s whose `type` contains `"ld+json"`
case-insensitively; each non-empty trimmed block contributes its
pretty-printed form when the JSON codec succeeds and its raw trimmed text
when it fails (the function is total — a parse failure cannot raise);
empty blocks are skipped; and the result is the blocks' line lists joined
with exactly one blank separator line between consecutive blocks — no
leading or trailing separator, and the empty sequence when no block
matches. -/
theorem c7_schema_jsonld (tryPretty : String → Option String) (doc : Node) :
    extract_schema_jsonld tryPretty doc
      = ((((findAllDesc is_ldjson doc).filterMap fun sc =>
            if pyStrip (scriptRaw sc) = "" then none
            else some ((tryPretty (pyStrip (scriptRaw sc))).getD (pyStrip (scriptRaw sc)))).map
              pySplitlines).intersperse [""]).flatten ∧
    (findAllDesc is_ldjson doc = [] → extract_schema_jsonld tryPretty doc = []) ∧
    findAllDesc is_ldjson doc = (findAllDesc (fun _ => true) doc).filter is_ldjson := by
  have hmain : extract_schema_jsonld tryPretty doc
      = ((((findAllDesc is_ldjson doc).filterMap fun sc =>
            if pyStrip (scriptRaw sc) = "" then none
            else some ((tryPretty (pyStrip (scriptRaw sc))).getD (pyStrip (scriptRaw sc)))).map
              pySplitlines).intersperse [""]).flatten := by
    unfold extract_schema_jsonld
    rw [schemaLinesOfBlocks_eq, schemaBlocks_eq]
  refine ⟨hmain, ?_, findAllDesc_eq_filter is_ldjson doc⟩
  intro hempty
  rw [hmain, hempty]
  rfl

/-- C7 witness: a document with no JSON-LD script yields the empty line
sequence, and a two-block document is joined with one blank separator. -/
theorem c7_schema_jsonld_witness :
    extract_schema_jsonld (fun _ => none)
        (.elem "html" [] [.elem "p" [] [.text "x"]]) = [] ∧
    extract_schema_jsonld (fun s => some ("PP " ++ s))
        (.elem "html" []
          [.elem "script" [("type", "application/ld+json")] [.text " one "],
           .elem "script" [("type", "LD+JSON; charset=utf-8")] [.text "two"],
           .elem "script" [("type", "text/javascript")] [.text "zzz"]])
      = ["PP one", "", "PP two"] := by
  constructor
  · exact (c7_schema_jsonld (fun _ => none) (.elem "html" [] [.elem "p" [] [.text "x"]])).2.1
      rfl
  · rw [(c7_schema_jsonld (fun s => some ("PP " ++ s)) _).1]
    decide

end ContentRec

namespace ContentRec

/-! ### Remove-before-first-h1 (claim C8) -/

theorem prunePath_tagName (p : List Nat) (n : Node) :
    (prunePath p n).tagName = n.tagName := by
  cases p with
  | nil => rfl
  | cons i rest =>
    cases n with
    | text s => rfl
    | comment s => rfl
    | elem nm ats cs =>
      simp only [prunePath]
      split <;> rfl

theorem findH1PathList_ne_nil (cs : List Node) : findH1PathList cs ≠ some [] := by
  induction cs with
  | nil => simp [findH1PathList]
  | cons c cs' ih =>
    rw [findH1PathList]
    by_cases h1 : isH1 c
    · simp [h1]
    · rw [if_neg h1]
      cases hfp : findH1Path c with
      | some q => simp
      | none =>
        cases hl : findH1PathList cs' with
        | none => simp
        | some a =>
          cases a with
          | nil => exact absurd hl ih
          | cons j r => simp [bumpHead]

theorem findH1PathList_inv (cs : List Node) :
    ∀ i rest, findH1PathList cs = some (i :: rest) →
      ∃ c, cs.drop i = c :: cs.drop (i + 1) ∧
        ((rest = [] ∧ isH1 c = true) ∨ (isH1 c = false ∧ findH1Path c = some rest)) := by
  induction cs with
  | nil => intro i rest h; simp [findH1PathList] at h
  | cons c cs' ih =>
    intro i rest h
    rw [findH1PathList] at h
    by_cases h1 : isH1 c
    · rw [if_pos h1] at h
      injection h with h2
      obtain ⟨rfl, rfl⟩ : i = 0 ∧ rest = [] := by
        cases h2
        exact ⟨rfl, rfl⟩
      exact ⟨c, by simp, Or.inl ⟨rfl, h1⟩⟩
    · rw [if_neg h1] at h
      cases hfp : findH1Path c with
      | some q =>
        rw [hfp] at h
        injection h with h2
        obtain ⟨rfl, rfl⟩ : i = 0 ∧ rest = q := by
          cases h2
          exact ⟨rfl, rfl⟩
        exact ⟨c, by simp, Or.inr ⟨Bool.eq_false_iff.mpr h1, hfp⟩⟩
      | none =>
        rw [hfp] at h
        rw [Option.map_eq_some'] at h
        obtain ⟨a, ha, hb⟩ := h
        cases a with
        | nil => simp [bumpHead] at hb
        | cons j r =>
          simp only [bumpHead, List.cons.injEq] at hb
          obtain ⟨rfl, rfl⟩ : i = j + 1 ∧ rest = r := ⟨hb.1.symm, hb.2.symm⟩
          obtain ⟨c0, hdrop, hcase⟩ := ih j rest ha
          refine ⟨c0, ?_, hcase⟩
          rw [List.drop_succ_cons, List.drop_succ_cons, hdrop]

theorem findH1Path_prunePath : ∀ (p : List Nat) (n : Node),
    findH1Path n = some p →
      findH1Path (prunePath p n) = some (List.replicate p.length 0) := by
  intro p
  induction p with
  | nil =>
    intro n h
    cases n with
    | text s => simp [findH1Path] at h
    | comment s => simp [findH1Path] at h
    | elem nm ats cs =>
      rw [findH1Path] at h
      exact absurd h (findH1PathList_ne_nil cs)
  | cons i rest ih =>
    intro n h
    cases n with
    | text s => simp [findH1Path] at h
    | comment s => simp [findH1Path] at h
    | elem nm ats cs =>
      rw [findH1Path] at h
      obtain ⟨c, hdrop, hcase⟩ := findH1PathList_inv cs i rest h
      rcases hcase with ⟨rfl, hH1⟩ | ⟨hnH1, hfp⟩
      · simp only [prunePath, hdrop, findH1Path, findH1PathList, hH1, if_true,
          List.length_cons, List.length_nil]
        rfl
      · have hname : isH1 (prunePath rest c) = false := by
          unfold isH1 at hnH1 ⊢
          rw [prunePath_tagName]
          exact hnH1
        have hrec := ih c hfp
        simp only [prunePath, hdrop, findH1Path, findH1PathList, hname, Bool.false_eq_true,
          if_false, hrec, List.length_cons]
        rfl

/-- C8: `remove_before_first_h1_all_levels` is a no-op when the body has no
`h1` descendant; when one exists, it prunes every preceding sibling along
the ancestor chain, so that in the result nothing but ancestors precedes
the first `h1` in document order (its child-index path becomes all zeros at
the same depth); on `<body><div>Before</div><h1>X</h1><p>After</p></body>`
it removes the `div` entirely, extraction of the pruned body yields
`<h1> X` then `<p> After`, and extraction without the option preserves
`Before` as a paragraph line. -/
theorem c8_remove_before_first_h1 (body : Node) :
    (findH1Path body = none → remove_before_first_h1_all_levels body = body) ∧
    (∀ p, findH1Path body = some p →
      findH1Path (remove_before_first_h1_all_levels body)
        = some (List.replicate p.length 0)) ∧
    (remove_before_first_h1_all_levels
        (.elem "body" [] [.elem "div" [] [.text "Before"], .elem "h1" [] [.text "X"],
          .elem "p" [] [.text "After"]])
      = .elem "body" [] [.elem "h1" [] [.text "X"], .elem "p" [] [.text "After"]]) ∧
    (extract_signposted_lines_from_body
        (remove_before_first_h1_all_levels
          (.elem "body" [] [.elem "div" [] [.text "Before"], .elem "h1" [] [.text "X"],
            .elem "p" [] [.text "After"]])) false false
      = ["<h1> X", "<p> After"]) ∧
    (extract_signposted_lines_from_body
        (.elem "body" [] [.elem "div" [] [.text "Before"], .elem "h1" [] [.text "X"],
          .elem "p" [] [.text "After"]]) false false
      = ["<p> Before", "<h1> X", "<p> After"]) := by
  refine ⟨?_, ?_, rfl, by decide, by decide⟩
  · intro h
    simp [remove_before_first_h1_all_levels, h]
  · intro p hp
    rw [remove_before_first_h1_all_levels, hp]
    exact findH1Path_prunePath p body hp

/-- C8 witness: a body without `h1` is returned unchanged, and for the
example body the path to the first `h1` of the pruned tree is `[0]`. -/
theorem c8_remove_before_first_h1_witness :
    remove_before_first_h1_all_levels (.elem "body" [] [.elem "p" [] [.text "x"]])
        = .elem "body" [] [.elem "p" [] [.text "x"]] ∧
      findH1Path
          (remove_before_first_h1_all_levels
            (.elem "body" [] [.elem "div" [] [.text "Before"], .elem "h1" [] [.text "X"],
              .elem "p" [] [.text "After"]]))
        = some [0] := by
  constructor
  · exact (c8_remove_before_first_h1 (.elem "body" [] [.elem "p" [] [.text "x"]])).1 rfl
  · exact (c8_remove_before_first_h1
      (.elem "body" [] [.elem "div" [] [.text "Before"], .elem "h1" [] [.text "X"],
        .elem "p" [] [.text "After"]])).2.1 [1] rfl

end ContentRec

namespace ContentRec

/-! ### Page metadata (claim C9) -/

/-- C9 counterexample: a whitespace-only (but non-empty) `<title>` defeats
the claimed sentinel invariant — the title field becomes the empty string,
not `"N/A"`, while its length field is 0 even though the field does not
hold the sentinel. -/
theorem c9_title_counterexample :
    pyStrip "   " = "" ∧
    titleOf (.elem "head" [] [.elem "title" [] [.text "   "]]) = "" ∧
    titleOf (.elem "head" [] [.elem "title" [] [.text "   "]]) ≠ "N/A" ∧
    metaFieldLen (titleOf (.elem "head" [] [.elem "title" [] [.text "   "]])) = 0 := by decide

/-- C9 amended: the title is the trimmed single string of the first `title`
element; it is `"N/A"` when that element is absent, has no single string
child, or its raw string is exactly empty — but a whitespace-only string
trims to `""` (not the sentinel); the description defaults to `"N/A"` when
the meta tag is absent; and each length field equals the field's string
length except that it is forced to 0 whenever the field equals `"N/A"`
(hence 0 for the sentinel, 0 for the empty-string title, and 0 even when
the page's genuine text is literally `N/A`). -/
theorem c9_meta_defaults (head : Node) (v : String) :
    (findFirst "title" head = none → titleOf head = "N/A") ∧
    (∀ t, findFirst "title" head = some t → nodeString t = none → titleOf head = "N/A") ∧
    (∀ t, findFirst "title" head = some t → nodeString t = some "" → titleOf head = "N/A") ∧
    (∀ t s, findFirst "title" head = some t → nodeString t = some s → s ≠ "" →
      titleOf head = pyStrip s) ∧
    (findMetaDescription head = none → descriptionOf head = "N/A") ∧
    metaFieldLen v = (if v = "N/A" then 0 else v.length) ∧
    metaFieldLen "N/A" = 0 ∧
    titleOf (.elem "head" [] [.elem "title" [] [.text "   "]]) = "" := by
  refine ⟨?_, ?_, ?_, ?_, ?_, ?_, by decide, by decide⟩
  · intro h
    simp [titleOf, h]
  · intro t ht hs
    simp [titleOf, ht, hs]
  · intro t ht hs
    simp [titleOf, ht, hs]
  · intro t s ht hs hne
    simp [titleOf, ht, hs, hne]
  · intro h
    simp [descriptionOf, h]
  · unfold metaFieldLen
    by_cases h : v = "N/A" <;> simp [h]

/-- C9 witness: the sentinel applies to a head without a `title` and the
length rule gives 2 for a two-character title value. -/
theorem c9_meta_defaults_witness :
    titleOf (.elem "head" [] []) = "N/A" ∧ metaFieldLen "ab" = 2 := by
  constructor
  · exact (c9_meta_defaults (.elem "head" [] []) "ab").1 rfl
  · rw [(c9_meta_defaults (.elem "head" [] []) "ab").2.2.2.2.2.1]
    decide

end ContentRec

namespace ContentRec

/-! ### Idempotence of `normalise_keep_newlines` (claim C10) -/

theorem step1_eq_self (l : List Char) :
    (∀ c ∈ l, c ≠ '\r' ∧ c ≠ '\xa0') → step1 l = l := by
  induction l using step1.induct with
  | case1 => intro h; rfl
  | case2 => intro h; exact absurd rfl (h '\r' (by simp)).1
  | case3 hne => intro h; exact absurd rfl (h '\xa0' (by simp)).2
  | case4 c h1 h2 => intro h; simp [step1, h1, h2]
  | case5 c c2 rest hand ih => intro h; exact absurd hand.1 (h c (by simp)).1
  | case6 c2 rest hne ih => intro h; exact absurd rfl (h '\r' (by simp)).1
  | case7 c2 rest h7a h7b ih => intro h; exact absurd rfl (h '\xa0' (by simp)).2
  | case8 c c2 rest h1 h2 h3 ih =>
    intro h
    rw [step1, if_neg h1, if_neg h2, if_neg h3,
      ih (fun d hd => h d (List.mem_cons_of_mem c hd))]

theorem step1_mem (l : List Char) : ∀ c ∈ step1 l, c ≠ '\r' ∧ c ≠ '\xa0' := by
  induction l using step1.induct with
  | case1 => simp [step1]
  | case2 =>
    have : step1 ['\r'] = ['\n'] := by simp [step1]
    rw [this]
    intro c hc
    rw [List.mem_singleton] at hc
    subst hc
    exact ⟨by decide, by decide⟩
  | case3 hne =>
    have : step1 ['\xa0'] = [' '] := by simp [step1]
    rw [this]
    intro c hc
    rw [List.mem_singleton] at hc
    subst hc
    exact ⟨by decide, by decide⟩
  | case4 c h1 h2 =>
    have : step1 [c] = [c] := by simp [step1, h1, h2]
    rw [this]
    intro d hd
    rw [List.mem_singleton] at hd
    subst hd
    exact ⟨h1, h2⟩
  | case5 c c2 rest hand ih =>
    have : step1 (c :: c2 :: rest) = '\n' :: step1 rest := by rw [step1, if_pos hand]
    rw [this]
    intro d hd
    rcases List.mem_cons.mp hd with rfl | hd2
    · exact ⟨by decide, by decide⟩
    · exact ih d hd2
  | case6 c2 rest hne ih =>
    have : step1 ('\r' :: c2 :: rest) = '\n' :: step1 (c2 :: rest) := by
      rw [step1, if_neg hne, if_pos rfl]
    rw [this]
    intro d hd
    rcases List.mem_cons.mp hd with rfl | hd2
    · exact ⟨by decide, by decide⟩
    · exact ih d hd2
  | case7 c2 rest h7a h7b ih =>
    have : step1 ('\xa0' :: c2 :: rest) = ' ' :: step1 (c2 :: rest) := by
      rw [step1, if_neg h7a, if_neg h7b, if_pos rfl]
    rw [this]
    intro d hd
    rcases List.mem_cons.mp hd with rfl | hd2
    · exact ⟨by decide, by decide⟩
    · exact ih d hd2
  | case8 c c2 rest h1 h2 h3 ih =>
    have : step1 (c :: c2 :: rest) = c :: step1 (c2 :: rest) := by
      rw [step1, if_neg h1, if_neg h2, if_neg h3]
    rw [this]
    intro d hd
    rcases List.mem_cons.mp hd with rfl | hd2
    · exact ⟨h2, h3⟩
    · exact ih d hd2

theorem step2Aux_chars (l : List Char) :
    ∀ (b : Bool) (c : Char), c ∈ step2Aux b l → c = ' ' ∨ (c ∈ l ∧ isSpaceTab c = false) := by
  induction l with
  | nil => intro b c hc; simp [step2Aux] at hc
  | cons d rest ih =>
    intro b c hc
    rw [step2Aux] at hc
    by_cases hd : isSpaceTab d
    · rw [if_pos hd] at hc
      cases b with
      | true =>
        simp only [if_true] at hc
        rcases ih true c hc with h | ⟨h1, h2⟩
        · exact Or.inl h
        · exact Or.inr ⟨List.mem_cons_of_mem d h1, h2⟩
      | false =>
        simp only [Bool.false_eq_true, if_false] at hc
        rcases List.mem_cons.mp hc with rfl | hc2
        · exact Or.inl rfl
        · rcases ih true c hc2 with h | ⟨h1, h2⟩
          · exact Or.inl h
          · exact Or.inr ⟨List.mem_cons_of_mem d h1, h2⟩
    · rw [if_neg hd] at hc
      rcases List.mem_cons.mp hc with rfl | hc2
      · exact Or.inr ⟨List.mem_cons_self c rest, Bool.eq_false_iff.mpr hd⟩
      · rcases ih false c hc2 with h | ⟨h1, h2⟩
        · exact Or.inl h
        · exact Or.inr ⟨List.mem_cons_of_mem d h1, h2⟩

theorem step2Aux_true_head (l : List Char) :
    ∀ c, (step2Aux true l).head? = some c → isSpaceTab c = false := by
  induction l with
  | nil => intro c hc; simp [step2Aux] at hc
  | cons d rest ih =>
    intro c hc
    rw [step2Aux] at hc
    by_cases hd : isSpaceTab d
    · rw [if_pos hd] at hc
      simp only [if_true] at hc
      exact ih c hc
    · rw [if_neg hd] at hc
      simp only [List.head?_cons, Option.some.injEq] at hc
      subst hc
      exact Bool.eq_false_iff.mpr hd

theorem step2Aux_chain (l : List Char) :
    ∀ b, List.Chain' (fun a c => ¬(isSpaceTab a = true ∧ isSpaceTab c = true))
      (step2Aux b l) := by
  induction l with
  | nil => intro b; simp [step2Aux]
  | cons d rest ih =>
    intro b
    rw [step2Aux]
    by_cases hd : isSpaceTab d
    · rw [if_pos hd]
      cases b with
      | true => simpa using ih true
      | false =>
        simp only [Bool.false_eq_true, if_false]
        refine List.Chain'.cons' (ih true) ?_
        intro y hy
        have := step2Aux_true_head rest y hy
        simp [this]
    · rw [if_neg hd]
      refine List.Chain'.cons' (ih false) ?_
      intro y hy
      have hd' : isSpaceTab d = false := Bool.eq_false_iff.mpr hd
      simp [hd']

theorem step2Aux_false_eq_self (l : List Char)
    (htab : ∀ c ∈ l, c ≠ '\t')
    (hch : List.Chain' (fun a c => ¬(isSpaceTab a = true ∧ isSpaceTab c = true)) l) :
    step2Aux false l = l := by
  induction l with
  | nil => rfl
  | cons d rest ih =>
    rw [step2Aux]
    by_cases hd : isSpaceTab d
    · rw [if_pos hd]
      simp only [Bool.false_eq_true, if_false]
      have hdsp : d = ' ' := by
        have h0 : d = ' ' ∨ d = '\t' := by simpa [isSpaceTab] using hd
        rcases h0 with h | h
        · exact h
        · exact absurd h (htab d (by simp))
      subst hdsp
      congr 1
      cases rest with
      | nil => rfl
      | cons e r =>
        have he : isSpaceTab e = false := by
          have hpair := List.Chain'.rel_head hch
          by_cases hee : isSpaceTab e = true
          · exact absurd ⟨hd, hee⟩ hpair
          · exact Bool.eq_false_iff.mpr hee
        have h1 : step2Aux true (e :: r) = e :: step2Aux false r := by
          rw [step2Aux, if_neg (by simp [he])]
      
        have h2 : step2Aux false (e :: r) = e :: step2Aux false r := by
          rw [step2Aux, if_neg (by simp [he])]
      
        rw [h1, ← h2]
        exact ih (fun c hc => htab c (List.mem_cons_of_mem _ hc)) (List.Chain'.tail hch)
    · rw [if_neg hd]
      congr 1
      exact ih (fun c hc => htab c (List.mem_cons_of_mem _ hc)) (List.Chain'.tail hch)

theorem step3Aux_chars (P : Char → Prop) (hnl : P '\n') :
    ∀ (l : List Char), (∀ c ∈ l, P c) →
      (∀ c ∈ step3Aux none l, P c) ∧
      (∀ pending, (∀ c ∈ pending, P c) → ∀ c ∈ step3Aux (some pending) l, P c) := by
  intro l
  induction l with
  | nil =>
    intro _
    constructor
    · intro c hc; simp [step3Aux] at hc
    · intro pending hp c hc
      rw [step3Aux] at hc
      exact hp c (List.mem_reverse.mp hc)
  | cons d rest ih =>
    intro hl
    have hd := hl d (by simp)
    have hrest : ∀ c ∈ rest, P c := fun c hc => hl c (List.mem_cons_of_mem d hc)
    obtain ⟨ihn, ihs⟩ := ih hrest
    constructor
    · intro c hc
      rw [step3Aux] at hc
      by_cases h1 : isSpaceTab d
      · rw [if_pos h1] at hc
        exact ihn c hc
      · rw [if_neg h1] at hc
        by_cases h2 : d = '\n'
        · rw [if_pos h2] at hc
          rcases List.mem_cons.mp hc with rfl | hc2
          · exact hnl
          · exact ihn c hc2
        · rw [if_neg h2] at hc
          rcases List.mem_cons.mp hc with rfl | hc2
          · exact hd
          · exact ihs [] (by simp) c hc2
    · intro pending hp c hc
      rw [step3Aux] at hc
      by_cases h1 : isSpaceTab d
      · rw [if_pos h1] at hc
        refine ihs (d :: pending) ?_ c hc
        intro e he
        rcases List.mem_cons.mp he with rfl | he2
        · exact hd
        · exact hp e he2
      · rw [if_neg h1] at hc
        by_cases h2 : d = '\n'
        · rw [if_pos h2] at hc
          rcases List.mem_cons.mp hc with rfl | hc2
          · exact hnl
          · exact ihn c hc2
        · rw [if_neg h2] at hc
          rcases List.mem_append.mp hc with hc2 | hc3
          · exact hp c (List.mem_reverse.mp hc2)
          · rcases List.mem_cons.mp hc3 with rfl | hc4
            · exact hd
            · exact ihs [] (by simp) c hc4

theorem okPair_nl_left {h : Char} (hh : isSpaceTab h = false) : okPair '\n' h := by
  refine ⟨?_, ?_, ?_⟩
  · rintro ⟨h1, _⟩
    exact absurd h1 (by decide)
  · rintro ⟨h1, _⟩
    exact absurd h1 (by decide)
  · rintro ⟨_, h2⟩
    rw [hh] at h2
    exact absurd h2 (by decide)

theorem okPair_reg_left {c h : Char} (h1 : isSpaceTab c = false) (h2 : c ≠ '\n') :
    okPair c h := by
  refine ⟨?_, ?_, ?_⟩
  · rintro ⟨ha, _⟩
    rw [h1] at ha
    exact absurd ha (by decide)
  · rintro ⟨ha, _⟩
    rw [h1] at ha
    exact absurd ha (by decide)
  · rintro ⟨ha, _⟩
    exact h2 ha

theorem okPair_ws_reg {w c : Char} (hw : isSpaceTab w = true) (hc : isSpaceTab c = false)
    (hcn : c ≠ '\n') : okPair w c := by
  refine ⟨?_, ?_, ?_⟩
  · rintro ⟨_, hb⟩
    rw [hc] at hb
    exact absurd hb (by decide)
  · rintro ⟨_, hb⟩
    exact hcn hb
  · rintro ⟨ha, _⟩
    subst ha
    exact absurd hw (by decide)

theorem step3Aux_norm (l : List Char) :
    List.Chain' (fun a c => ¬(isSpaceTab a = true ∧ isSpaceTab c = true)) l →
      (List.Chain' okPair (step3Aux none l) ∧
       (∀ c, (step3Aux none l).head? = some c → isSpaceTab c = false) ∧
       List.Chain' okPair (step3Aux (some []) l) ∧
       (∀ w, isSpaceTab w = true →
         (∀ c, l.head? = some c → isSpaceTab c = false) →
         List.Chain' okPair (step3Aux (some [w]) l))) := by
  induction l with
  | nil =>
    intro _
    refine ⟨by simp [step3Aux], by simp [step3Aux], by simp [step3Aux], ?_⟩
    intro w _ _
    simp [step3Aux]
  | cons d rest ih =>
    intro hch
    obtain ⟨ihA, ihAh, ihB, ihC⟩ := ih hch.tail
    have hpair : ∀ y, rest.head? = some y → ¬(isSpaceTab d = true ∧ isSpaceTab y = true) :=
      fun y hy => hch.rel_head? hy
    refine ⟨?_, ?_, ?_, ?_⟩
    · rw [step3Aux]
      by_cases h1 : isSpaceTab d
      · rw [if_pos h1]
        exact ihA
      · rw [if_neg h1]
        by_cases h2 : d = '\n'
        · rw [if_pos h2]
          exact List.Chain'.cons' ihA fun y hy => okPair_nl_left (ihAh y hy)
        · rw [if_neg h2]
          exact List.Chain'.cons' ihB fun y _ => okPair_reg_left (Bool.eq_false_iff.mpr h1) h2
    · intro c hc
      rw [step3Aux] at hc
      by_cases h1 : isSpaceTab d
      · rw [if_pos h1] at hc
        exact ihAh c hc
      · rw [if_neg h1] at hc
        by_cases h2 : d = '\n'
        · rw [if_pos h2] at hc
          simp only [List.head?_cons, Option.some.injEq] at hc
          subst hc
          decide
        · rw [if_neg h2] at hc
          simp only [List.head?_cons, Option.some.injEq] at hc
          subst hc
          exact Bool.eq_false_iff.mpr h1
    · rw [step3Aux]
      by_cases h1 : isSpaceTab d
      · rw [if_pos h1]
        apply ihC d h1
        intro c hc
        by_cases hcw : isSpaceTab c = true
        · exact absurd ⟨h1, hcw⟩ (hpair c hc)
        · exact Bool.eq_false_iff.mpr hcw
      · rw [if_neg h1]
        by_cases h2 : d = '\n'
        · rw [if_pos h2]
          exact List.Chain'.cons' ihA fun y hy => okPair_nl_left (ihAh y hy)
        · rw [if_neg h2]
          simp only [List.reverse_nil, List.nil_append]
          exact List.Chain'.cons' ihB fun y _ => okPair_reg_left (Bool.eq_false_iff.mpr h1) h2
    · intro w hw hhd
      have hd : isSpaceTab d = false := hhd d rfl
      rw [step3Aux, if_neg (by simp [hd])]
      by_cases h2 : d = '\n'
      · rw [if_pos h2]
        exact List.Chain'.cons' ihA fun y hy => okPair_nl_left (ihAh y hy)
      · rw [if_neg h2]
        simp only [List.reverse_cons, List.reverse_nil, List.nil_append, List.singleton_append]
        refine List.Chain'.cons (okPair_ws_reg hw hd h2) ?_
        exact List.Chain'.cons' ihB fun y _ => okPair_reg_left hd h2

theorem step3Aux_eq_self (l : List Char) :
    List.Chain' okPair l →
      ((∀ c, l.head? = some c → isSpaceTab c = false) → step3Aux none l = l) ∧
      step3Aux (some []) l = l ∧
      (∀ w, isSpaceTab w = true →
        (∀ c, l.head? = some c → isSpaceTab c = false ∧ c ≠ '\n') →
        step3Aux (some [w]) l = w :: l) := by
  induction l with
  | nil =>
    intro _
    exact ⟨fun _ => rfl, rfl, fun w _ _ => rfl⟩
  | cons d rest ih =>
    intro hch
    obtain ⟨ihA, ihB, ihC⟩ := ih hch.tail
    have hpair : ∀ y, rest.head? = some y → okPair d y := fun y hy => hch.rel_head? hy
    refine ⟨?_, ?_, ?_⟩
    · intro hhd
      have hd : isSpaceTab d = false := hhd d rfl
      rw [step3Aux, if_neg (by simp [hd])]
      by_cases h2 : d = '\n'
      · rw [if_pos h2]
        rw [h2]
        congr 1
        apply ihA
        intro c hc
        obtain ⟨_, _, p3⟩ := hpair c hc
        by_cases hcw : isSpaceTab c = true
        · rw [h2] at p3
          exact absurd ⟨rfl, hcw⟩ p3
        · exact Bool.eq_false_iff.mpr hcw
      · rw [if_neg h2, ihB]
    · rw [step3Aux]
      by_cases h1 : isSpaceTab d
      · rw [if_pos h1]
        apply ihC d h1
        intro c hc
        obtain ⟨p1, p2, _⟩ := hpair c hc
        constructor
        · by_cases hcw : isSpaceTab c = true
          · exact absurd ⟨h1, hcw⟩ p1
          · exact Bool.eq_false_iff.mpr hcw
        · intro heq
          exact p2 ⟨h1, heq⟩
      · rw [if_neg h1]
        by_cases h2 : d = '\n'
        · rw [if_pos h2, h2]
          congr 1
          apply ihA
          intro c hc
          obtain ⟨_, _, p3⟩ := hpair c hc
          by_cases hcw : isSpaceTab c = true
          · rw [h2] at p3
            exact absurd ⟨rfl, hcw⟩ p3
          · exact Bool.eq_false_iff.mpr hcw
        · rw [if_neg h2]
          simp only [List.reverse_nil, List.nil_append]
          rw [ihB]
    · intro w hw hhd
      obtain ⟨hdws, hdnl⟩ := hhd d rfl
      rw [step3Aux, if_neg (by simp [hdws]), if_neg hdnl]
      simp only [List.reverse_cons, List.reverse_nil, List.nil_append, List.singleton_append]
      rw [ihB]

/-- C10 helper: the output of the normalisation pipeline satisfies
`NormalChars`. -/
theorem normalise_NormalChars (s : String) :
    NormalChars (normalise_keep_newlines s).data := by
  unfold normalise_keep_newlines NormalChars
  have hmk : (String.mk (step3 (step2 (step1 s.data)))).data = step3 (step2 (step1 s.data)) := rfl
  rw [hmk]
  constructor
  · unfold step3 step2
    have hinput : ∀ c ∈ step2Aux false (step1 s.data),
        c ≠ '\r' ∧ c ≠ '\xa0' ∧ c ≠ '\t' := by
      intro c hc
      rcases step2Aux_chars (step1 s.data) false c hc with rfl | ⟨h1, h2⟩
      · exact ⟨by decide, by decide, by decide⟩
      · obtain ⟨hr, hn⟩ := step1_mem s.data c h1
        refine ⟨hr, hn, ?_⟩
        intro heq
        subst heq
        exact absurd h2 (by decide)
    exact (step3Aux_chars (fun c => c ≠ '\r' ∧ c ≠ '\xa0' ∧ c ≠ '\t')
        ⟨by decide, by decide, by decide⟩ (step2Aux false (step1 s.data)) hinput).2
      [] (by simp)
  · unfold step3 step2
    exact (step3Aux_norm (step2Aux false (step1 s.data)) (step2Aux_chain (step1 s.data) false)).2.2.1

/-- C10 helper: the pipeline is the identity on `NormalChars` lists. -/
theorem normalise_eq_self_of_NormalChars (l : List Char) (h : NormalChars l) :
    step3 (step2 (step1 l)) = l := by
  obtain ⟨hmem, hch⟩ := h
  have h1 : step1 l = l := step1_eq_self l fun c hc => ⟨(hmem c hc).1, (hmem c hc).2.1⟩
  rw [h1]
  have hch2 : List.Chain' (fun a c => ¬(isSpaceTab a = true ∧ isSpaceTab c = true)) l :=
    hch.imp fun a c hp => hp.1
  have h2 : step2 l = l := step2Aux_false_eq_self l (fun c hc => (hmem c hc).2.2) hch2
  unfold step2 at h2
  unfold step2
  rw [h2]
  unfold step3
  exact (step3Aux_eq_self l hch).2.1

/-- C10: `normalise_keep_newlines` is idempotent — applying it twice gives
the same string as applying it once, for every input string. -/
theorem c10_normalise_idempotent (s : String) :
    normalise_keep_newlines (normalise_keep_newlines s) = normalise_keep_newlines s := by
  have hN := normalise_NormalChars s
  show String.mk (step3 (step2 (step1 (normalise_keep_newlines s).data)))
    = normalise_keep_newlines s
  rw [normalise_eq_self_of_NormalChars (normalise_keep_newlines s).data hN]

end ContentRec
